import Mathlib

/-!
Shallow embedding of the json-render core (vercel-labs/json-render).

JavaScript strings are modelled as `List Char`; JavaScript runtime values
(the JSON-object fragment that the path-addressing, tree-reducer and
evaluator code manipulates) are modelled by the mutual inductive `Js` /
`JsFields`, where `JsFields` is the ordered own-property list of an object
(JS objects preserve insertion order; an update keeps the position of an
existing key, a fresh key is appended).  `Js.undefined` models the JavaScript
`undefined` value (absent properties read as `undefined`); it is distinct from
`Js.null`.  Operations that can throw a `TypeError` at runtime (the code
lives in ES modules, hence strict mode) return `Except Unit _`, with
`.error ()` standing for the thrown exception.  Arrays do not occur in any
behaviour under scrutiny here and are left out of the value fragment.
-/

mutual

/-- JavaScript runtime values (JSON-object fragment plus `undefined`). -/
inductive Js where
  | undefined : Js
  | null : Js
  | bool : Bool → Js
  | num : Int → Js
  | str : List Char → Js
  | obj : JsFields → Js

/-- Ordered own-property list of a JavaScript object. -/
inductive JsFields where
  | nil : JsFields
  | cons : List Char → Js → JsFields → JsFields

end

/-- Build an object field list from an ordinary Lean list. -/
def JsFields.ofList : List (List Char × Js) → JsFields
  | [] => .nil
  | (k, v) :: rest => .cons k v (JsFields.ofList rest)

/-- Property lookup on an object (`obj[key]` for an own property);
`none` means the property is absent. -/
def jsLookup : JsFields → List Char → Option Js
  | .nil, _ => none
  | .cons k v rest, key => if k = key then some v else jsLookup rest key

/-- Property assignment `obj[key] = v`: an existing key keeps its
position, a fresh key is appended (JS object insertion-order semantics). -/
def jsSetKey : JsFields → List Char → Js → JsFields
  | .nil, key, v => .cons key v .nil
  | .cons k w rest, key, v =>
      if k = key then .cons k v rest else .cons k w (jsSetKey rest key v)

/-- The JavaScript test `typeof x === "object"` (true for `null` and
objects). -/
def jsTypeofObject : Js → Bool
  | .null => true
  | .obj _ => true
  | _ => false

/-- JavaScript truthiness of a value. -/
def jsTruthy : Js → Bool
  | .undefined => false
  | .null => false
  | .bool b => b
  | .num n => n != 0
  | .str s => s != []
  | .obj _ => true

mutual

/-- No `null` occurs anywhere inside the value. -/
def jsNoNull : Js → Bool
  | .null => false
  | .obj fields => jsNoNullFields fields
  | _ => true

/-- No `null` occurs in any property value of the field list. -/
def jsNoNullFields : JsFields → Bool
  | .nil => true
  | .cons _ v rest => jsNoNull v && jsNoNullFields rest

end

/-- The object spread `\x7b...x\x7d` restricted to the modelled value
fragment: spreading an object copies its fields, spreading a string yields
its index-keyed characters, every other primitive yields an empty object. -/
def jsSpread : Js → JsFields
  | .obj fields => fields
  | .str s => JsFields.ofList ((s.enum.map fun ic => ((toString ic.1).toList, Js.str [ic.2])))
  | _ => .nil

/-- Single-character splitting with JavaScript `String.split` semantics:
the result is always non-empty and splitting the empty string yields one
empty piece. -/
def splitChar (sep : Char) : List Char → List (List Char)
  | [] => [[]]
  | c :: cs =>
      match splitChar sep cs with
      | [] => [[]]
      | s :: ss => if c = sep then [] :: s :: ss else (c :: s) :: ss

/-- Whitespace characters stripped by the modelled `String.trim` (the
whitespace actually occurring in JSONL streams). -/
def isWs (c : Char) : Bool :=
  c = ' ' || c = '\t' || c = '\n' || c = '\r'

/-- Strip leading whitespace. -/
def trimLeftChars : List Char → List Char
  | [] => []
  | c :: cs => if isWs c then trimLeftChars cs else c :: cs

/-- The JavaScript `line.trim()` on the modelled whitespace class. -/
def jsTrim (s : List Char) : List Char :=
  (trimLeftChars (trimLeftChars s.reverse).reverse)

/-- Slash-delimited path segments: `path.startsWith("/") ?
path.slice(1).split("/") : path.split("/")` (from `getByPath`/`setByPath`,
packages/adapters/adaptive-cards/src/index.ts). -/
def pathSegments (path : List Char) : List (List Char) :=
  match path with
  | '/' :: rest => splitChar '/' rest
  | _ => splitChar '/' path

/-- The loop of `getByPath`: at each segment return `undefined` if the
current value is `null`/`undefined`, descend if it is an object, and
return `undefined` on any other (non-object) value. -/
def getSegments : Js → List (List Char) → Js
  | cur, [] => cur
  | cur, seg :: rest =>
      match cur with
      | .undefined => .undefined
      | .null => .undefined
      | .obj fields => getSegments ((jsLookup fields seg).getD .undefined) rest
      | _ => .undefined

/-- Source `getByPath(obj, path)` (adaptive-cards/src/index.ts, lines
435-459): empty path or the path `/` returns the whole model, otherwise
the model is walked segment by segment, never throwing. -/
def getByPath (obj : Js) (path : List Char) : Js :=
  if path = [] ∨ path = ['/'] then obj
  else getSegments obj (pathSegments path)

/-- Runtime behaviour of `getByPath(obj, p)` when `p` is an arbitrary
value rather than a string (as reachable from `resolveDynamicValue`,
which passes `value.path` unchecked): a falsy `p` takes the `!path`
branch and returns the whole model, a truthy non-string `p` throws
(`p.startsWith` is not a function). -/
def getByPathDyn (obj : Js) (p : Js) : Except Unit Js :=
  match p with
  | .str s => .ok (getByPath obj s)
  | .undefined => .ok obj
  | .null => .ok obj
  | .bool false => .ok obj
  | .num 0 => .ok obj
  | _ => .error ()

/-- Source `resolveDynamicValue(value, dataModel)` (adaptive-cards/src/
index.ts, lines 417-430): `null`/`undefined` resolve to `undefined`; an
object with a `path` property is treated as a data reference and resolved
through `getByPath`; anything else is returned unchanged. -/
def resolveDynamicValue (value : Js) (dataModel : Js) : Except Unit Js :=
  match value with
  | .undefined => .ok .undefined
  | .null => .ok .undefined
  | .obj fields =>
      match jsLookup fields "path".toList with
      | some p => getByPathDyn dataModel p
      | none => .ok (.obj fields)
  | v => .ok v

/-- The loop of `setByPath`: walk all but the last segment; a missing
intermediate, or one whose `typeof` is not `"object"`, is overwritten
with a fresh empty object; the final segment is assigned.  Property
access on a non-object current value (in particular on `null`, which
`typeof` classifies as an object and which therefore survives the guard)
throws. -/
def setSegments : Js → List (List Char) → Js → Except Unit Js
  | cur, [], _ => .ok cur
  | cur, [last], v =>
      match cur with
      | .obj fields => .ok (.obj (jsSetKey fields last v))
      | _ => .error ()
  | cur, seg :: seg2 :: rest, v =>
      match cur with
      | .obj fields =>
          let child :=
            match jsLookup fields seg with
            | some c => if jsTypeofObject c then c else Js.obj .nil
            | none => Js.obj .nil
          match setSegments child (seg2 :: rest) v with
          | .ok child2 => .ok (.obj (jsSetKey fields seg child2))
          | .error e => .error e
      | _ => .error ()

/-- Source `setByPath(obj, path, value)` (adaptive-cards/src/index.ts,
lines 464-487), as a function on the final deep value of the mutated
object. -/
def setByPath (obj : Js) (path : List Char) (v : Js) : Except Unit Js :=
  setSegments obj (pathSegments path) v

/-! ## Patches and the UI tree -/

/-- The four recognised patch operation names (`PatchOp` in
adaptive-cards/src/index.ts, line 402). -/
inductive PatchOp where
  | set : PatchOp
  | add : PatchOp
  | replace : PatchOp
  | remove : PatchOp
deriving DecidableEq

/-- A parsed patch line as the reducer receives it (`JsonPatch`).  `op`
is `none` when the parsed value carries no recognised `op` string (the
reducer's `switch` then matches no case); `path`/`dataPath` are `none`
when absent (`undefined`); an absent `value` reads as `Js.undefined`. -/
structure JsonPatch where
  op : Option PatchOp
  path : Option (List Char)
  dataPath : Option (List Char)
  value : Js

/-- The flat UI tree: a root key and the element map (`UITree`).  The
element map is a JS object, modelled as an ordered association list;
`root` is whatever value the last `/root` patch stored. -/
structure UITree where
  root : Js
  elements : List (List Char × Js)

/-- Lookup in the element map. -/
def elemsLookup : List (List Char × Js) → List Char → Option Js
  | [], _ => none
  | (k, v) :: rest, key => if k = key then some v else elemsLookup rest key

/-- Update in the element map (JS object assignment semantics). -/
def elemsSet : List (List Char × Js) → List Char → Js → List (List Char × Js)
  | [], key, v => [(key, v)]
  | (k, w) :: rest, key, v =>
      if k = key then (k, v) :: rest else (k, w) :: elemsSet rest key v

/-- Deletion from the element map (rest/spread `const \x7b [key]: _, ...rest \x7d`). -/
def elemsErase : List (List Char × Js) → List Char → List (List Char × Js)
  | [], _ => []
  | (k, v) :: rest, key =>
      if k = key then elemsErase rest key else (k, v) :: elemsErase rest key

/-- The characters of the tree-path marker `/elements/`. -/
def elementsMarker : List Char := "/elements/".toList

/-- The shared `switch (patch.op)` body of the two `applyPatch` variants
(it is identical in packages/react/src/utils.ts and packages/react/src/
hooks.ts).  `path = none` models `patch.path === undefined`; reading
`undefined.startsWith` throws, hence `.error ()` on the branches that
reach it.  A `set`/`add`/`replace` at `/root` replaces the root key; at
`/elements/key` it replaces the whole element; at `/elements/key/...` it
copies the element (no-op when the element is absent or falsy) and
mutates the sub-path via `setByPath`, which can itself throw. -/
def applyPatchSwitch (tree : UITree) (patch : JsonPatch) : Except Unit UITree :=
  match patch.op with
  | some .set | some .add | some .replace =>
      match patch.path with
      | none => .error ()
      | some p =>
          if p = "/root".toList then .ok { tree with root := patch.value }
          else if elementsMarker.isPrefixOf p then
            let pathParts := splitChar '/' (p.drop elementsMarker.length)
            let elementKey := pathParts.headD []
            if elementKey = [] then .ok tree
            else if pathParts.length = 1 then
              .ok { tree with elements := elemsSet tree.elements elementKey patch.value }
            else
              match elemsLookup tree.elements elementKey with
              | some element =>
                  if jsTruthy element then
                    let propPath := '/' :: (List.intercalate ['/'] pathParts.tail)
                    match setByPath (.obj (jsSpread element)) propPath patch.value with
                    | .ok newElement =>
                        .ok { tree with elements := elemsSet tree.elements elementKey newElement }
                    | .error e => .error e
                  else .ok tree
              | none => .ok tree
          else .ok tree
  | some .remove =>
      match patch.path with
      | none => .error ()
      | some p =>
          if elementsMarker.isPrefixOf p then
            let elementKey := (splitChar '/' (p.drop elementsMarker.length)).headD []
            if elementKey = [] then .ok tree
            else .ok { tree with elements := elemsErase tree.elements elementKey }
          else .ok tree
  | none => .ok tree

/-- Source `applyPatch(tree, patch)` of packages/react/src/utils.ts
(lines 22-79): a falsy `patch.path` (absent or the empty string) returns
the tree unchanged before the `switch`. -/
def applyPatch (tree : UITree) (patch : JsonPatch) : Except Unit UITree :=
  match patch.path with
  | none => .ok tree
  | some p => if p = [] then .ok tree else applyPatchSwitch tree patch

/-- Source `applyPatch(tree, patch)` private to packages/react/src/
hooks.ts (lines 25-78): identical `switch`, but with no guard on
`patch.path`, so a patch without a path throws inside the `set`/`remove`
cases (`patch.path.startsWith` on `undefined`). -/
def applyPatchHooks (tree : UITree) (patch : JsonPatch) : Except Unit UITree :=
  applyPatchSwitch tree patch

/-! ## Patch stream processor (packages/react/src/hooks.ts, useUIStream) -/

/-- Source `parsePatchLine(line)` (hooks.ts lines 10-20, identically
utils.ts lines 7-17), parameterised by the JSON parser `jsonParse`, an
oracle standing for `JSON.parse` composed with the call sites' `if
(patch)` truthiness test: `jsonParse s = none` models both a `SyntaxError`
(caught, `null` returned) and a parsed falsy value (skipped by the
caller).  The line is trimmed; an empty or `//`-led trimmed line yields
`null` before the parser ever runs. -/
def parsePatchLine (jsonParse : List Char → Option JsonPatch) (line : List Char) :
    Option JsonPatch :=
  let trimmed := jsTrim line
  if trimmed = [] then none
  else if "//".toList.isPrefixOf trimmed then none
  else jsonParse trimmed

/-- One line of the read loop of `useUIStream.send` (hooks.ts lines
228-234): parse the line, skip it when the parse yields nothing, apply
the patch otherwise.  The returned flag records whether `applyPatch`
threw (the exception then escapes the whole read loop). -/
def processLine (jsonParse : List Char → Option JsonPatch) (tree : UITree)
    (line : List Char) : UITree × Bool :=
  match parsePatchLine jsonParse line with
  | none => (tree, false)
  | some patch =>
      match applyPatchHooks tree patch with
      | .ok tree2 => (tree2, false)
      | .error _ => (tree, true)

/-- Process a list of complete lines in order, stopping at the first
thrown exception. -/
def processLines (jsonParse : List Char → Option JsonPatch) (tree : UITree) :
    List (List Char) → UITree × Bool
  | [] => (tree, false)
  | line :: rest =>
      match processLine jsonParse tree line with
      | (tree2, false) => processLines jsonParse tree2 rest
      | (tree2, true) => (tree2, true)

/-- State of the chunk loop: the held-back final fragment (`buffer`), the
current tree snapshot, and whether an exception has escaped the loop. -/
structure ProcState where
  buffer : List Char
  tree : UITree
  halted : Bool

/-- One iteration of the read loop (hooks.ts lines 220-235): append the
chunk to the buffer, split on newline, hold back the final fragment as the
new buffer, and fold every complete line through `processLine`. -/
def processChunk (jsonParse : List Char → Option JsonPatch) (st : ProcState)
    (chunk : List Char) : ProcState :=
  if st.halted then st
  else
    let parts := splitChar '\n' (st.buffer ++ chunk)
    let newBuffer := (parts.getLastD [])
    match processLines jsonParse st.tree parts.dropLast with
    | (tree2, halted2) => ⟨newBuffer, tree2, halted2⟩

/-- The final-fragment handling after the source completes (hooks.ts
lines 238-244): a remaining buffer with non-empty trim is processed as
one more line. -/
def flushBuffer (jsonParse : List Char → Option JsonPatch) (st : ProcState) :
    UITree × Bool :=
  if st.halted then (st.tree, true)
  else if jsTrim st.buffer = [] then (st.tree, false)
  else processLine jsonParse st.tree st.buffer

/-- The entire successful-response body of `useUIStream.send`: fold the
delivered text chunks through the buffer-and-split loop, then flush the
final fragment; the result is the final tree snapshot. -/
def runStream (jsonParse : List Char → Option JsonPatch) (tree0 : UITree)
    (chunks : List (List Char)) : UITree :=
  (flushBuffer jsonParse (chunks.foldl (processChunk jsonParse) ⟨[], tree0, false⟩)).1

/-- What the transport delivers to one `send` invocation: a fetch-level
network error, or a response with its HTTP success flag; on a success
response, the body reader yields the text chunks in order and then either
completes or fails with a mid-stream network error. -/
inductive FetchResult where
  | netError : FetchResult
  | response (ok : Bool) (chunks : List (List Char)) (readFails : Bool) : FetchResult

/-- Observable outcome of one `send` invocation: the tree state left
behind, whether the error state was set, and which of the `onError` /
`onComplete` callbacks ran. -/
structure SendOutcome where
  tree : UITree
  errored : Bool
  onErrorCalled : Bool
  onCompleteCalled : Bool

/-- Source `useUIStream.send` (hooks.ts lines 167-258) for one
invocation, starting from the freshly committed initial snapshot `tree0`
(hooks.ts lines 177-182).  A non-OK response throws before any chunk is
read; a mid-stream read failure throws after all delivered chunks were
processed; an exception escaping `applyPatch` reaches the same `catch`.
The `catch` block records the error and invokes `onError`, touching the
tree state no further, so the tree keeps the last committed snapshot. -/
def runSend (jsonParse : List Char → Option JsonPatch) (tree0 : UITree) :
    FetchResult → SendOutcome
  | .netError => ⟨tree0, true, true, false⟩
  | .response false _ _ => ⟨tree0, true, true, false⟩
  | .response true chunks readFails =>
      let st := chunks.foldl (processChunk jsonParse) ⟨[], tree0, false⟩
      if st.halted then ⟨st.tree, true, true, false⟩
      else if readFails then ⟨st.tree, true, true, false⟩
      else
        match flushBuffer jsonParse st with
        | (tree2, true) => ⟨tree2, true, true, false⟩
        | (tree2, false) => ⟨tree2, false, false, true⟩

/-! ## Validation engine (packages/solidjs validation context) -/

/-- Result of running a field's checks (`ValidationResult`). -/
structure ValidationResult where
  valid : Bool
  errors : List (List Char)

/-- Per-field validation state (`FieldValidationState`). -/
structure FieldValidationState where
  touched : Bool
  validated : Bool
  result : Option ValidationResult

/-- Validation state keyed by data path, as the `fieldStates` signal
holds it. -/
def statesLookup : List (List Char × FieldValidationState) → List Char →
    Option FieldValidationState
  | [], _ => none
  | (k, v) :: rest, key => if k = key then some v else statesLookup rest key

/-- Update of the `fieldStates` record (JS object assignment semantics). -/
def statesSet : List (List Char × FieldValidationState) → List Char →
    FieldValidationState → List (List Char × FieldValidationState)
  | [], key, v => [(key, v)]
  | (k, w) :: rest, key, v =>
      if k = key then (k, v) :: rest else (k, w) :: statesSet rest key v

/-- Source `validate(path, config)` of the validation provider
(ValidationProvider): resolve the current value at `path` in the data
model with `getByPath`, run the checks, and record the result, keeping a
previously recorded `touched` flag (absent entries read as touched).
`runValidation` lives outside the core sources, so the checks runner is a
parameter `runCheck`, taking the field's config and the resolved value. -/
def validateField (runCheck : Js → Js → ValidationResult) (dataModel : Js)
    (states : List (List Char × FieldValidationState)) (path : List Char)
    (config : Js) : ValidationResult × List (List Char × FieldValidationState) :=
  let value := getByPath dataModel path
  let result := runCheck config value
  let touched :=
    match statesLookup states path with
    | some prev => prev.touched
    | none => true
  (result, statesSet states path ⟨touched, true, some result⟩)

/-- Source `validateAll()` of the validation provider: iterate every
registered field in registration order, validating each one (state
updates included) and lowering the running flag on every invalid result;
no early exit. -/
def validateAll (runCheck : Js → Js → ValidationResult) (dataModel : Js) :
    List (List Char × Js) → Bool → List (List Char × FieldValidationState) →
    Bool × List (List Char × FieldValidationState)
  | [], allValid, states => (allValid, states)
  | (path, config) :: rest, allValid, states =>
      match validateField runCheck dataModel states path config with
      | (result, states2) =>
          validateAll runCheck dataModel rest (allValid && result.valid) states2

/-! ## Action engine (packages/solidjs/src/contexts/actions.tsx) -/

/-- A declared action (`Action`): the handler name, the parameter map of
dynamic values, and the optional confirmation payload (held opaquely). -/
structure JrAction where
  name : List Char
  params : List (List Char × Js)
  confirm : Option Js

/-- Modelled from the spec: `resolveAction` of `@json-render/core` is not
under the sources; per the spec it resolves every `params` entry through
the Dynamic Value Evaluator against the data-model snapshot at dispatch
time, leaving name and confirmation untouched. -/
def resolveAction (action : JrAction) (dataModel : Js) : Except Unit JrAction := do
  let params ← action.params.mapM fun kv => do
    let v ← resolveDynamicValue kv.2 dataModel
    pure (kv.1, v)
  pure ⟨action.name, params, action.confirm⟩

/-- A pending confirmation record: the resolved action it holds (the
handler it captured is identified by the action name). -/
structure PendingConfirmation where
  action : JrAction

/-- Engine state: the pending confirmation (at most one), the loading
set, and the trace of handler invocations (name with the resolved params
each call received). -/
structure EngineState where
  pending : Option PendingConfirmation
  loading : List (List Char)
  calls : List (List Char × List (List Char × Js))

/-- How a call to `execute(action)` returned. -/
inductive ExecStart where
  | thrown : ExecStart
  | noHandler : ExecStart
  | awaiting : JrAction → ExecStart
  | completed : JrAction → ExecStart

/-- Source `execute(action)` (actions.tsx lines 83-150): resolve the
action against the current data model, look up the handler by name (a
missing handler logs and returns without effect), then either suspend on
a pending-confirmation record when `confirm` is present, or run the
handler immediately.  `executeAction` of `@json-render/core` is not under
the sources; modelled from the spec, execution invokes the handler with
the resolved params (recorded in `calls`; the loading flag is raised and
cleared around the synchronously-modelled invocation, leaving `loading`
unchanged). -/
def executeStart (handlers : List (List Char)) (dataModel : Js)
    (st : EngineState) (action : JrAction) : EngineState × ExecStart :=
  match resolveAction action dataModel with
  | .error _ => (st, .thrown)
  | .ok resolved =>
      if handlers.contains resolved.name then
        match resolved.confirm with
        | some _ => ({ st with pending := some ⟨resolved⟩ }, .awaiting resolved)
        | none =>
            ({ st with calls := st.calls ++ [(resolved.name, resolved.params)] },
              .completed resolved)
      else (st, .noHandler)

/-- Source `confirm()` (actions.tsx lines 152-154) plus the resumed
continuation (lines 107-127): with no pending record it is a no-op;
otherwise the pending record is cleared and the captured handler is
invoked with the params resolved at dispatch time (the current data model
is not consulted again). -/
def confirmStep (st : EngineState) : EngineState :=
  match st.pending with
  | none => st
  | some rec =>
      { st with
        pending := none
        calls := st.calls ++ [(rec.action.name, rec.action.params)] }

/-- Source `cancel()` (actions.tsx lines 156-158): with no pending record
it is a no-op; otherwise the pending record is cleared and the execution
promise rejects (`Error("Action cancelled")`), the handler never running.
The returned flag records whether a rejection was delivered. -/
def cancelStep (st : EngineState) : EngineState × Bool :=
  match st.pending with
  | none => (st, false)
  | some _ => ({ st with pending := none }, true)

/-! ## Proof-support definitions -/

/-- Character-at-a-time version of the buffer-and-split loop: a newline
closes the held-back fragment and processes it as one complete line, any
other character is appended to the fragment.  Used to relate different
chunkings of the same text. -/
def feedChar (jsonParse : List Char → Option JsonPatch) (st : ProcState)
    (c : Char) : ProcState :=
  if st.halted then st
  else if c = '\n' then
    match processLine jsonParse st.tree st.buffer with
    | (tree2, halted2) => ⟨[], tree2, halted2⟩
  else ⟨st.buffer ++ [c], st.tree, st.halted⟩

/-- Observational equivalence of processor states: same tree and halt
flag, and the same buffer whenever the loop is still running (once an
exception has escaped, the held-back fragment is dead state). -/
def stEq (s1 s2 : ProcState) : Prop :=
  s1.tree = s2.tree ∧ s1.halted = s2.halted ∧ (s1.halted = false → s1.buffer = s2.buffer)

/-- The data model of the confirmation scenario: a mapping containing
`refund.amount = 50`. -/
def refundModel : Js :=
  .obj (.cons "refund".toList (.obj (.cons "amount".toList (.num 50) .nil)) .nil)

/-- The action of the confirmation scenario: name `refund`, one `amount`
parameter referencing `/refund/amount`, and a confirmation payload. -/
def refundAction : JrAction :=
  ⟨"refund".toList,
    [("amount".toList, .obj (.cons "path".toList (.str "/refund/amount".toList) .nil))],
    some (.obj (.cons "title".toList (.str "Confirm".toList) .nil))⟩

/-- A concrete stand-in for `JSON.parse` used by closed witness
statements: it recognises the single line `1` (a valid JSON document)
and fails on everything else. -/
def jsonParseTest (s : List Char) : Option JsonPatch :=
  if s = "1".toList then some ⟨none, none, none, .num 1⟩ else none

/-- A concrete checks runner for closed witness statements: the field is
valid exactly when its resolved value is truthy. -/
def runCheckTest (config value : Js) : ValidationResult :=
  ⟨jsTruthy value || jsTruthy config, if jsTruthy value then [] else ["required".toList]⟩

/-! ## Basic lemmas -/

theorem jsLookup_setKey : ∀ (f : JsFields) (k : List Char) (v : Js) (k2 : List Char),
    jsLookup (jsSetKey f k v) k2 = if k = k2 then some v else jsLookup f k2
  | .nil, k, v, k2 => by
      by_cases h : k = k2 <;> simp [jsSetKey, jsLookup, h]
  | .cons a w rest, k, v, k2 => by
      by_cases ha : a = k
      · subst ha
        by_cases h2 : a = k2 <;> simp [jsSetKey, jsLookup, h2]
      · by_cases h2 : a = k2
        · subst h2
          have hna : ¬ k = a := fun h => ha h.symm
          simp [jsSetKey, jsLookup, ha, hna]
        · simp [jsSetKey, jsLookup, ha, h2, jsLookup_setKey rest k v k2]

theorem jsNoNullFields_lookup : ∀ {f : JsFields} {k : List Char} {c : Js},
    jsNoNullFields f = true → jsLookup f k = some c → jsNoNull c = true
  | .nil, k, c => by intro _ hl; simp [jsLookup] at hl
  | .cons a w rest, k, c => by
      intro hf hl
      rw [jsNoNullFields, Bool.and_eq_true] at hf
      rw [jsLookup] at hl
      by_cases ha : a = k
      · rw [if_pos ha, Option.some.injEq] at hl
        exact hl ▸ hf.1
      · rw [if_neg ha] at hl
        exact jsNoNullFields_lookup hf.2 hl

theorem elemsLookup_set (l : List (List Char × Js)) (k : List Char) (v : Js)
    (k2 : List Char) :
    elemsLookup (elemsSet l k v) k2 = if k = k2 then some v else elemsLookup l k2 := by
  induction l with
  | nil =>
      by_cases h : k = k2 <;> simp [elemsSet, elemsLookup, h]
  | cons a rest ih =>
      obtain ⟨ak, av⟩ := a
      by_cases ha : ak = k
      · subst ha
        by_cases h2 : ak = k2 <;> simp [elemsSet, elemsLookup, h2]
      · by_cases h2 : ak = k2
        · subst h2
          have : ¬ k = ak := fun h => ha h.symm
          simp [elemsSet, elemsLookup, ha, this]
        · simp [elemsSet, elemsLookup, ha, h2, ih]

theorem elemsLookup_erase (l : List (List Char × Js)) (k k2 : List Char) :
    elemsLookup (elemsErase l k) k2 = if k = k2 then none else elemsLookup l k2 := by
  induction l with
  | nil => by_cases h : k = k2 <;> simp [elemsErase, elemsLookup, h]
  | cons a rest ih =>
      obtain ⟨ak, av⟩ := a
      by_cases ha : ak = k
      · subst ha
        rw [elemsErase, if_pos rfl, ih]
        by_cases h2 : ak = k2
        · simp [h2]
        · simp [elemsLookup, h2]
      · rw [elemsErase, if_neg ha, elemsLookup]
        by_cases h2 : ak = k2
        · subst h2
          have hna : ¬ k = ak := fun h => ha h.symm
          rw [if_pos rfl, if_neg hna, elemsLookup, if_pos rfl]
        · rw [if_neg h2, ih, elemsLookup, if_neg h2]

theorem elemsErase_not_mem {l : List (List Char × Js)} {k : List Char}
    (h : elemsLookup l k = none) : elemsErase l k = l := by
  induction l with
  | nil => rfl
  | cons a rest ih =>
      obtain ⟨ak, av⟩ := a
      rw [elemsLookup] at h
      by_cases ha : ak = k
      · simp [ha] at h
      · rw [if_neg ha] at h
        rw [elemsErase, if_neg ha, ih h]

theorem splitChar_ne_nil (sep : Char) (l : List Char) : splitChar sep l ≠ [] := by
  cases l with
  | nil => simp [splitChar]
  | cons c cs =>
      rw [splitChar]
      cases h : splitChar sep cs with
      | nil => simp
      | cons s ss => by_cases hc : c = sep <;> simp [hc]

theorem splitChar_eq_single {sep : Char} {l : List Char} (h : sep ∉ l) :
    splitChar sep l = [l] := by
  induction l with
  | nil => rfl
  | cons c cs ih =>
      simp only [List.mem_cons, not_or] at h
      rw [splitChar, ih h.2]
      simp [Ne.symm h.1]

theorem splitChar_prepend {sep : Char} {k : List Char} (h : sep ∉ k) (s : List Char) :
    splitChar sep (k ++ sep :: s) = k :: splitChar sep s := by
  induction k with
  | nil =>
      rw [List.nil_append, splitChar]
      cases hs : splitChar sep s with
      | nil => exact absurd hs (splitChar_ne_nil sep s)
      | cons a as => simp
  | cons c cs ih =>
      simp only [List.mem_cons, not_or] at h
      rw [List.cons_append, splitChar, ih h.2]
      simp [Ne.symm h.1]

theorem marker_ne_nil (k : List Char) : elementsMarker ++ k ≠ [] := by
  simp [elementsMarker]

theorem marker_append_ne_root (k : List Char) :
    elementsMarker ++ k ≠ "/root".toList := by
  intro h
  rw [show elementsMarker = '/' :: 'e' :: "lements/".toList from rfl] at h
  rw [show "/root".toList = '/' :: 'r' :: "oot".toList from rfl] at h
  simp at h

theorem marker_isPrefixOf_append (k : List Char) :
    elementsMarker.isPrefixOf (elementsMarker ++ k) = true := by
  simp [List.isPrefixOf_iff_prefix, List.prefix_append]

theorem marker_drop_append (k : List Char) :
    (elementsMarker ++ k).drop elementsMarker.length = k := by
  simp [List.drop_left]

theorem pathSegments_ne_nil (path : List Char) : pathSegments path ≠ [] := by
  rw [pathSegments.eq_def]
  split
  · exact splitChar_ne_nil '/' _
  · exact splitChar_ne_nil '/' _

theorem setSegments_noNull : ∀ (segs : List (List Char)) (fields : JsFields) (v : Js),
    segs ≠ [] → jsNoNullFields fields = true →
    ∃ r : JsFields, setSegments (.obj fields) segs v = .ok (.obj r)
      ∧ getSegments (.obj r) segs = v
  | [], _, _, h, _ => absurd rfl h
  | [last], fields, v, _, _ => by
      refine ⟨jsSetKey fields last v, rfl, ?_⟩
      rw [getSegments, jsLookup_setKey, if_pos rfl, Option.getD_some, getSegments]
  | seg :: seg2 :: rest, fields, v, _, hf => by
      have hchild : ∃ f2 : JsFields,
          (match jsLookup fields seg with
            | some c => if jsTypeofObject c then c else Js.obj .nil
            | none => Js.obj .nil) = Js.obj f2 ∧ jsNoNullFields f2 = true := by
        cases hc : jsLookup fields seg with
        | none => exact ⟨.nil, rfl, rfl⟩
        | some c =>
            have hcn : jsNoNull c = true := jsNoNullFields_lookup hf hc
            cases c with
            | null => exact absurd hcn (by simp [jsNoNull])
            | obj f2 => exact ⟨f2, rfl, hcn⟩
            | undefined => exact ⟨.nil, rfl, rfl⟩
            | bool b => exact ⟨.nil, rfl, rfl⟩
            | num n => exact ⟨.nil, rfl, rfl⟩
            | str s => exact ⟨.nil, rfl, rfl⟩
      obtain ⟨f2, hceq, hf2⟩ := hchild
      obtain ⟨r2, hs2, hg2⟩ :=
        setSegments_noNull (seg2 :: rest) f2 v (by simp) hf2
      refine ⟨jsSetKey fields seg (.obj r2), ?_, ?_⟩
      · rw [setSegments, hceq, hs2]
      · rw [getSegments, jsLookup_setKey, if_pos rfl, Option.getD_some]
        exact hg2

/-- Claim C2 (counterexample): `setByPath` does throw: on the model
mapping `a` to `null`, setting path `a/b` walks into the `null`
intermediate (which `typeof` classifies as `"object"`, so the overwrite
guard does not replace it) and the property access on `null` throws a
`TypeError`. -/
theorem setByPath_null_intermediate_throws :
    setByPath (Js.obj (.cons "a".toList Js.null .nil)) "a/b".toList (Js.num 1)
      = .error () := rfl

/-- Claim C2 (amended): for every model object containing no `null`
value, every slash-delimited path and every value, `setByPath` walks all
but the last segment, creating an empty mapping at any missing or
non-object intermediate segment (overwriting such non-mapping
intermediates), assigns the value at the final segment (readable back by
`getByPath` whenever the path is not the whole-model path `` or `/`),
and does not throw. -/
theorem setByPath_noNull_assigns (fields : JsFields) (path : List Char) (v : Js)
    (hf : jsNoNullFields fields = true) :
    ∃ r : JsFields, setByPath (.obj fields) path v = .ok (.obj r)
      ∧ (path ≠ [] → path ≠ ['/'] → getByPath (.obj r) path = v) := by
  obtain ⟨r, hs, hg⟩ :=
    setSegments_noNull (pathSegments path) fields v (pathSegments_ne_nil path) hf
  refine ⟨r, hs, fun h1 h2 => ?_⟩
  rw [getByPath, if_neg (by simp [h1, h2])]
  exact hg

/-- Witness for the amended C2 theorem: a model whose intermediate at
`a` is the string `s` (a non-mapping), set at path `a/b`. -/
theorem setByPath_noNull_assigns_witness :
    jsNoNullFields (.cons "a".toList (Js.str "s".toList) .nil) = true
    ∧ ∃ r : JsFields,
        setByPath (Js.obj (.cons "a".toList (Js.str "s".toList) .nil)) "a/b".toList
          (Js.num 7) = .ok (.obj r)
        ∧ ("a/b".toList ≠ [] → "a/b".toList ≠ ['/'] →
            getByPath (.obj r) "a/b".toList = Js.num 7) :=
  ⟨rfl, setByPath_noNull_assigns (.cons "a".toList (Js.str "s".toList) .nil)
    "a/b".toList (Js.num 7) rfl⟩

/-- Claim C10: a non-null object value with a `path` property is always
treated as a data reference (`getByPath` is consulted, the object is
never returned as-is), and `null`/`undefined` inputs resolve to
`undefined`. -/
theorem resolveDynamicValue_reference (fields : JsFields) (dataModel p : Js)
    (hp : jsLookup fields "path".toList = some p) :
    resolveDynamicValue (.obj fields) dataModel = getByPathDyn dataModel p
    ∧ resolveDynamicValue .null dataModel = .ok .undefined
    ∧ resolveDynamicValue .undefined dataModel = .ok .undefined := by
  refine ⟨?_, rfl, rfl⟩
  rw [resolveDynamicValue, hp]

/-- Witness for C10 at the refund scenario reference object. -/
theorem resolveDynamicValue_reference_witness :
    resolveDynamicValue
        (.obj (.cons "path".toList (.str "/refund/amount".toList) .nil)) refundModel
      = getByPathDyn refundModel (.str "/refund/amount".toList)
    ∧ resolveDynamicValue .null refundModel = .ok .undefined
    ∧ resolveDynamicValue .undefined refundModel = .ok .undefined :=
  resolveDynamicValue_reference
    (.cons "path".toList (.str "/refund/amount".toList) .nil) refundModel
    (.str "/refund/amount".toList) rfl

/-- Claim C7: a line that is blank after trimming, or starts with `//`
after trimming, or on which the JSON parser yields nothing, makes
`parsePatchLine` return nothing, and such a line is skipped by the stream
processor with the tree unchanged and the remaining lines still
processed; a non-blank non-comment line on which the parser yields a
patch makes `parsePatchLine` return exactly that patch. -/
theorem parsePatchLine_cases (jsonParse : List Char → Option JsonPatch)
    (line : List Char) :
    (jsTrim line = [] → parsePatchLine jsonParse line = none)
    ∧ ("//".toList.isPrefixOf (jsTrim line) = true →
        parsePatchLine jsonParse line = none)
    ∧ (jsonParse (jsTrim line) = none → parsePatchLine jsonParse line = none)
    ∧ (∀ p, jsTrim line ≠ [] → "//".toList.isPrefixOf (jsTrim line) = false →
        jsonParse (jsTrim line) = some p → parsePatchLine jsonParse line = some p)
    ∧ (parsePatchLine jsonParse line = none → ∀ (tree : UITree) rest,
        processLines jsonParse tree (line :: rest) = processLines jsonParse tree rest) := by
  have hunfold : parsePatchLine jsonParse line =
      (if jsTrim line = [] then none
        else if "//".toList.isPrefixOf (jsTrim line) = true then none
        else jsonParse (jsTrim line)) := rfl
  refine ⟨?_, ?_, ?_, ?_, ?_⟩
  · intro h; rw [hunfold, if_pos h]
  · intro h
    rw [hunfold]
    by_cases he : jsTrim line = []
    · rw [if_pos he]
    · rw [if_neg he, if_pos h]
  · intro h
    rw [hunfold]
    by_cases he : jsTrim line = []
    · rw [if_pos he]
    · by_cases hc : "//".toList.isPrefixOf (jsTrim line) = true
      · rw [if_neg he, if_pos hc]
      · rw [if_neg he, if_neg hc]
        exact h
  · intro p he hc hp
    have hcn : ¬ ("//".toList.isPrefixOf (jsTrim line) = true) := by
      rw [hc]; exact Bool.false_ne_true
    rw [hunfold, if_neg he, if_neg hcn]
    exact hp
  · intro h tree rest
    rw [processLines, processLine, h]

/-- Witness for C7: the concrete parser recognising the line `1` skips a
blank line and a comment line and parses a padded `1` line. -/
theorem parsePatchLine_cases_witness :
    parsePatchLine jsonParseTest "  ".toList = none
    ∧ parsePatchLine jsonParseTest "// off".toList = none
    ∧ parsePatchLine jsonParseTest " 1 ".toList = some ⟨none, none, none, .num 1⟩ :=
  ⟨(parsePatchLine_cases jsonParseTest "  ".toList).1 rfl,
    (parsePatchLine_cases jsonParseTest "// off".toList).2.1 rfl,
    (parsePatchLine_cases jsonParseTest " 1 ".toList).2.2.2.1 ⟨none, none, none, .num 1⟩
      (by decide) rfl rfl⟩

theorem applyPatchSwitch_whole (t : UITree) (o : PatchOp) (ho : o ≠ PatchOp.remove)
    (k : List Char) (hk : k ≠ []) (hks : ('/' : Char) ∉ k)
    (dp : Option (List Char)) (v : Js) :
    applyPatchSwitch t ⟨some o, some (elementsMarker ++ k), dp, v⟩
      = .ok { t with elements := elemsSet t.elements k v } := by
  have hroot := marker_append_ne_root k
  have hpre := marker_isPrefixOf_append k
  cases o with
  | remove => exact absurd rfl ho
  | set =>
      simp only [applyPatchSwitch]
      rw [if_neg hroot, if_pos hpre, marker_drop_append, splitChar_eq_single hks]
      simp [hk]
  | add =>
      simp only [applyPatchSwitch]
      rw [if_neg hroot, if_pos hpre, marker_drop_append, splitChar_eq_single hks]
      simp [hk]
  | replace =>
      simp only [applyPatchSwitch]
      rw [if_neg hroot, if_pos hpre, marker_drop_append, splitChar_eq_single hks]
      simp [hk]

theorem applyPatchSwitch_subpath_absent (t : UITree) (op : Option PatchOp)
    (k sub : List Char) (hk : k ≠ []) (hks : ('/' : Char) ∉ k)
    (hlook : elemsLookup t.elements k = none) (dp : Option (List Char)) (v : Js) :
    applyPatchSwitch t ⟨op, some (elementsMarker ++ (k ++ '/' :: sub)), dp, v⟩
      = .ok t := by
  have hroot := marker_append_ne_root (k ++ '/' :: sub)
  have hpre := marker_isPrefixOf_append (k ++ '/' :: sub)
  have hsplit : splitChar '/' (k ++ '/' :: sub) = k :: splitChar '/' sub :=
    splitChar_prepend hks sub
  have hlen : (k :: splitChar '/' sub).length ≠ 1 := by
    cases hsp : splitChar '/' sub with
    | nil => exact absurd hsp (splitChar_ne_nil '/' sub)
    | cons a as => simp
  cases op with
  | none => rfl
  | some o =>
      cases o with
      | remove =>
          simp only [applyPatchSwitch]
          rw [if_pos hpre, marker_drop_append, hsplit]
          simp only [List.headD_cons]
          rw [if_neg hk, elemsErase_not_mem hlook]
      | set =>
          simp only [applyPatchSwitch]
          rw [if_neg hroot, if_pos hpre, marker_drop_append, hsplit]
          simp only [List.headD_cons]
          rw [if_neg hk, if_neg hlen, hlook]
      | add =>
          simp only [applyPatchSwitch]
          rw [if_neg hroot, if_pos hpre, marker_drop_append, hsplit]
          simp only [List.headD_cons]
          rw [if_neg hk, if_neg hlen, hlook]
      | replace =>
          simp only [applyPatchSwitch]
          rw [if_neg hroot, if_pos hpre, marker_drop_append, hsplit]
          simp only [List.headD_cons]
          rw [if_neg hk, if_neg hlen, hlook]

theorem applyPatch_whole (t : UITree) (o : PatchOp) (ho : o ≠ PatchOp.remove)
    (k : List Char) (hk : k ≠ []) (hks : ('/' : Char) ∉ k)
    (dp : Option (List Char)) (v : Js) :
    applyPatch t ⟨some o, some (elementsMarker ++ k), dp, v⟩
      = .ok { t with elements := elemsSet t.elements k v } := by
  simp only [applyPatch]
  rw [if_neg (marker_ne_nil k)]
  exact applyPatchSwitch_whole t o ho k hk hks dp v

/-- Claim C3: a field-mutation patch (any op, e.g. `replace`) addressed
below an element key that is not present in the tree is a no-op:
`applyPatch` returns the input tree unchanged. -/
theorem applyPatch_absent_field_noop (t : UITree) (op : Option PatchOp)
    (k sub : List Char) (dp : Option (List Char)) (v : Js)
    (hks : ('/' : Char) ∉ k) (hk : k ≠ []) (hlook : elemsLookup t.elements k = none) :
    applyPatch t ⟨op, some (elementsMarker ++ (k ++ '/' :: sub)), dp, v⟩ = .ok t := by
  simp only [applyPatch]
  rw [if_neg (marker_ne_nil _)]
  exact applyPatchSwitch_subpath_absent t op k sub hk hks hlook dp v

/-- Witness for C3: replacing `/elements/x/props/title` on a tree with no
`x` element returns the tree. -/
theorem applyPatch_absent_field_noop_witness :
    (('/' : Char) ∉ "x".toList)
    ∧ "x".toList ≠ []
    ∧ elemsLookup (UITree.mk (Js.str []) []).elements "x".toList = none
    ∧ applyPatch ⟨Js.str [], []⟩
        ⟨some PatchOp.replace,
          some (elementsMarker ++ ("x".toList ++ '/' :: "props/title".toList)),
          none, .str "T".toList⟩ = .ok ⟨Js.str [], []⟩ :=
  ⟨by decide, by decide, rfl,
    applyPatch_absent_field_noop ⟨Js.str [], []⟩ (some PatchOp.replace)
      "x".toList "props/title".toList none (.str "T".toList)
      (by decide) (by decide) rfl⟩

/-- Claim C9: a `remove` patch whose path is not under `/elements/`
(including an absent path) leaves the tree unchanged; moreover any
`remove` patch preserves the root key and can only delete entries of the
element map (any key whose binding changed is gone afterwards). -/
theorem applyPatch_remove_scoped (t : UITree) (patch : JsonPatch)
    (hop : patch.op = some PatchOp.remove) :
    ((∀ s, patch.path = some s → elementsMarker.isPrefixOf s = false) →
        applyPatch t patch = .ok t)
    ∧ ∀ r, applyPatch t patch = .ok r → r.root = t.root
        ∧ ∀ k, elemsLookup r.elements k ≠ elemsLookup t.elements k →
            elemsLookup r.elements k = none := by
  obtain ⟨op, path, dp, v⟩ := patch
  simp only at hop
  subst hop
  cases path with
  | none =>
      refine ⟨fun _ => rfl, fun r hr => ?_⟩
      simp only [applyPatch] at hr
      injection hr with h
      subst h
      exact ⟨rfl, fun k hk => absurd rfl hk⟩
  | some p =>
      by_cases hp : p = []
      · subst hp
        refine ⟨fun _ => by simp [applyPatch], fun r hr => ?_⟩
        simp only [applyPatch, if_pos] at hr
        injection hr with h
        subst h
        exact ⟨rfl, fun k hk => absurd rfl hk⟩
      · simp only [applyPatch, if_neg hp]
        cases hpre : elementsMarker.isPrefixOf p with
        | false =>
            have hres : applyPatchSwitch t ⟨some .remove, some p, dp, v⟩ = .ok t := by
              simp only [applyPatchSwitch]
              rw [if_neg (by rw [hpre]; exact Bool.false_ne_true)]
            rw [hres]
            refine ⟨fun _ => rfl, fun r hr => ?_⟩
            injection hr with h
            subst h
            exact ⟨rfl, fun k hk => absurd rfl hk⟩
        | true =>
            constructor
            · intro h
              have hcontra := h p rfl
              rw [hpre] at hcontra
              exact Bool.noConfusion hcontra
            · intro r hr
              simp only [applyPatchSwitch] at hr
              rw [if_pos hpre] at hr
              by_cases hkey : (splitChar '/' (p.drop elementsMarker.length)).headD [] = []
              · rw [if_pos hkey] at hr
                injection hr with h
                subst h
                exact ⟨rfl, fun k hk => absurd rfl hk⟩
              · rw [if_neg hkey] at hr
                injection hr with h
                subst h
                refine ⟨rfl, fun k hk => ?_⟩
                rw [elemsLookup_erase] at hk ⊢
                by_cases he : (splitChar '/' (p.drop elementsMarker.length)).headD [] = k
                · rw [if_pos he]
                · rw [if_neg he] at hk
                  exact absurd rfl hk

/-- Witness for C9: removing `/root` on a one-element tree returns the
tree unchanged. -/
theorem applyPatch_remove_scoped_witness :
    applyPatch ⟨Js.str "a".toList, [("a".toList, Js.num 1)]⟩
        ⟨some PatchOp.remove, some "/root".toList, none, .undefined⟩
      = .ok ⟨Js.str "a".toList, [("a".toList, Js.num 1)]⟩ :=
  (applyPatch_remove_scoped ⟨Js.str "a".toList, [("a".toList, Js.num 1)]⟩
      ⟨some PatchOp.remove, some "/root".toList, none, .undefined⟩ rfl).1
    (fun s hs => by injection hs with h; subst h; decide)

/-- Claim C5: two whole-element patches (`set`/`add`/`replace`) at
distinct keys `/elements/k1` and `/elements/k2` commute: applied in
either order to any tree, both orders succeed and the final trees are
structurally equal (same root, same binding for every key). -/
theorem applyPatch_whole_comm (t : UITree) (o1 o2 : PatchOp)
    (ho1 : o1 ≠ PatchOp.remove) (ho2 : o2 ≠ PatchOp.remove)
    (k1 k2 : List Char) (hk1 : k1 ≠ []) (hk2 : k2 ≠ [])
    (hks1 : ('/' : Char) ∉ k1) (hks2 : ('/' : Char) ∉ k2) (hne : k1 ≠ k2)
    (dp1 dp2 : Option (List Char)) (v1 v2 : Js) :
    ∃ t1 t12 t2 t21 : UITree,
      applyPatch t ⟨some o1, some (elementsMarker ++ k1), dp1, v1⟩ = .ok t1
      ∧ applyPatch t1 ⟨some o2, some (elementsMarker ++ k2), dp2, v2⟩ = .ok t12
      ∧ applyPatch t ⟨some o2, some (elementsMarker ++ k2), dp2, v2⟩ = .ok t2
      ∧ applyPatch t2 ⟨some o1, some (elementsMarker ++ k1), dp1, v1⟩ = .ok t21
      ∧ t12.root = t21.root
      ∧ ∀ k, elemsLookup t12.elements k = elemsLookup t21.elements k := by
  refine ⟨_, _, _, _,
    applyPatch_whole t o1 ho1 k1 hk1 hks1 dp1 v1,
    applyPatch_whole _ o2 ho2 k2 hk2 hks2 dp2 v2,
    applyPatch_whole t o2 ho2 k2 hk2 hks2 dp2 v2,
    applyPatch_whole _ o1 ho1 k1 hk1 hks1 dp1 v1,
    rfl, ?_⟩
  intro k
  rw [elemsLookup_set, elemsLookup_set, elemsLookup_set, elemsLookup_set]
  by_cases e1 : k1 = k
  · subst e1
    have h21 : ¬ k2 = k1 := fun h => hne h.symm
    simp [h21]
  · by_cases e2 : k2 = k
    · simp [e1, e2]
    · simp [e1, e2]

/-- Witness for C5: setting elements `a` and `b` on the empty tree in
either order. -/
theorem applyPatch_whole_comm_witness :
    ∃ t1 t12 t2 t21 : UITree,
      applyPatch ⟨Js.str [], []⟩
          ⟨some PatchOp.set, some (elementsMarker ++ "a".toList), none, Js.num 1⟩ = .ok t1
      ∧ applyPatch t1
          ⟨some PatchOp.add, some (elementsMarker ++ "b".toList), none, Js.num 2⟩ = .ok t12
      ∧ applyPatch ⟨Js.str [], []⟩
          ⟨some PatchOp.add, some (elementsMarker ++ "b".toList), none, Js.num 2⟩ = .ok t2
      ∧ applyPatch t2
          ⟨some PatchOp.set, some (elementsMarker ++ "a".toList), none, Js.num 1⟩ = .ok t21
      ∧ t12.root = t21.root
      ∧ ∀ k, elemsLookup t12.elements k = elemsLookup t21.elements k :=
  applyPatch_whole_comm ⟨Js.str [], []⟩ PatchOp.set PatchOp.add
    (by decide) (by decide) "a".toList "b".toList (by decide) (by decide)
    (by decide) (by decide) (by decide) none none (Js.num 1) (Js.num 2)

/-- Claim C6: dispatching the refund action (params referencing
`/refund/amount`, confirmation required) against a data model holding
`refund.amount = 50` suspends on a pending confirmation whose resolved
params equal `amount = 50` (resolution happened at dispatch time);
`cancel()` rejects the execution and clears the pending record with the
handler never invoked; `confirm()` clears the pending record and invokes
the handler with `amount = 50`. -/
theorem refund_confirmation_scenario :
    executeStart ["refund".toList] refundModel ⟨none, [], []⟩ refundAction
      = (⟨some ⟨⟨"refund".toList, [("amount".toList, Js.num 50)], refundAction.confirm⟩⟩,
          [], []⟩,
        .awaiting ⟨"refund".toList, [("amount".toList, Js.num 50)], refundAction.confirm⟩)
    ∧ cancelStep
        (executeStart ["refund".toList] refundModel ⟨none, [], []⟩ refundAction).1
      = (⟨none, [], []⟩, true)
    ∧ confirmStep
        (executeStart ["refund".toList] refundModel ⟨none, [], []⟩ refundAction).1
      = ⟨none, [], [("refund".toList, [("amount".toList, Js.num 50)])]⟩ :=
  ⟨rfl, rfl, rfl⟩

theorem statesLookup_set (l : List (List Char × FieldValidationState))
    (k : List Char) (v : FieldValidationState) (k2 : List Char) :
    statesLookup (statesSet l k v) k2 = if k = k2 then some v else statesLookup l k2 := by
  induction l with
  | nil =>
      by_cases h : k = k2 <;> simp [statesSet, statesLookup, h]
  | cons a rest ih =>
      obtain ⟨ak, av⟩ := a
      by_cases ha : ak = k
      · subst ha
        by_cases h2 : ak = k2 <;> simp [statesSet, statesLookup, h2]
      · by_cases h2 : ak = k2
        · subst h2
          have hna : ¬ k = ak := fun h => ha h.symm
          simp [statesSet, statesLookup, ha, hna]
        · simp [statesSet, statesLookup, ha, h2, ih]

/-- Helper: the verdict accumulator of `validateAll` is the conjunction
of the accumulator with the validity of every registered field's check
result. -/
theorem validateAll_fst (runCheck : Js → Js → ValidationResult) (dataModel : Js) :
    ∀ (configs : List (List Char × Js)) (b : Bool)
      (states : List (List Char × FieldValidationState)),
      (validateAll runCheck dataModel configs b states).1
        = (b && configs.all fun pc => (runCheck pc.2 (getByPath dataModel pc.1)).valid)
  | [], b, states => by simp [validateAll]
  | (path, config) :: rest, b, states => by
      rw [validateAll]
      simp only [validateField]
      rw [validateAll_fst runCheck dataModel rest]
      simp [Bool.and_assoc]

/-- Helper: fields whose path is not registered later keep their state
through the rest of the `validateAll` fold. -/
theorem validateAll_lookup_notmem (runCheck : Js → Js → ValidationResult)
    (dataModel : Js) :
    ∀ (configs : List (List Char × Js)) (b : Bool)
      (states : List (List Char × FieldValidationState)) (p : List Char),
      p ∉ configs.map Prod.fst →
      statesLookup (validateAll runCheck dataModel configs b states).2 p
        = statesLookup states p
  | [], b, states, p, _ => rfl
  | (path, config) :: rest, b, states, p, hp => by
      simp only [List.map_cons, List.mem_cons, not_or] at hp
      rw [validateAll]
      simp only [validateField]
      rw [validateAll_lookup_notmem runCheck dataModel rest _ _ p hp.2]
      rw [statesLookup_set]
      rw [if_neg (fun h => hp.1 h.symm)]

/-- Helper: every registered field gets a validated state entry with its
own check result recorded. -/
theorem validateAll_lookup_mem (runCheck : Js → Js → ValidationResult)
    (dataModel : Js) :
    ∀ (configs : List (List Char × Js)) (b : Bool)
      (states : List (List Char × FieldValidationState)),
      (configs.map Prod.fst).Nodup →
      ∀ pc ∈ configs, ∃ st : FieldValidationState,
        statesLookup (validateAll runCheck dataModel configs b states).2 pc.1 = some st
        ∧ st.validated = true
        ∧ st.result = some (runCheck pc.2 (getByPath dataModel pc.1))
  | [], _, _, _, pc, h => absurd h (List.not_mem_nil pc)
  | (path, config) :: rest, b, states, hnd, pc, hmem => by
      have hnd2 := List.nodup_cons.mp hnd
      rcases List.mem_cons.mp hmem with heq | hrest
      · subst heq
        rw [validateAll]
        simp only [validateField]
        rw [validateAll_lookup_notmem runCheck dataModel rest _ _ _ hnd2.1]
        rw [statesLookup_set, if_pos rfl]
        exact ⟨_, rfl, rfl, rfl⟩
      · rw [validateAll]
        simp only [validateField]
        exact validateAll_lookup_mem runCheck dataModel rest _ _ hnd2.2 pc hrest

/-- Claim C8: `validateAll` validates every registered field (each one
ends up with a validated state holding its own check result, so no field
is skipped by an earlier failure) and returns `true` exactly when every
registered field's check result is valid. -/
theorem validateAll_every_field (runCheck : Js → Js → ValidationResult)
    (dataModel : Js) (configs : List (List Char × Js))
    (states0 : List (List Char × FieldValidationState))
    (hnd : (configs.map Prod.fst).Nodup) :
    ((validateAll runCheck dataModel configs true states0).1 = true ↔
      ∀ pc ∈ configs, (runCheck pc.2 (getByPath dataModel pc.1)).valid = true)
    ∧ ∀ pc ∈ configs, ∃ st : FieldValidationState,
        statesLookup (validateAll runCheck dataModel configs true states0).2 pc.1 = some st
        ∧ st.validated = true
        ∧ st.result = some (runCheck pc.2 (getByPath dataModel pc.1)) := by
  constructor
  · rw [validateAll_fst, Bool.true_and, List.all_eq_true]
  · exact validateAll_lookup_mem runCheck dataModel configs true states0 hnd

/-- Witness for C8: one valid field (`/refund/amount`, resolving to 50)
and one invalid field (`/missing`, resolving to `undefined`) under the
truthiness checks runner: both fields carry a recorded result. -/
theorem validateAll_every_field_witness :
    (([("/refund/amount".toList, Js.num 1),
        ("/missing".toList, Js.num 0)].map Prod.fst).Nodup)
    ∧ (((validateAll runCheckTest refundModel
          [("/refund/amount".toList, Js.num 1), ("/missing".toList, Js.num 0)]
          true []).1 = true ↔
        ∀ pc ∈ [("/refund/amount".toList, Js.num 1), ("/missing".toList, Js.num 0)],
          (runCheckTest pc.2 (getByPath refundModel pc.1)).valid = true)
      ∧ ∀ pc ∈ [("/refund/amount".toList, Js.num 1), ("/missing".toList, Js.num 0)],
          ∃ st : FieldValidationState,
            statesLookup (validateAll runCheckTest refundModel
                [("/refund/amount".toList, Js.num 1), ("/missing".toList, Js.num 0)]
                true []).2 pc.1 = some st
            ∧ st.validated = true
            ∧ st.result = some (runCheckTest pc.2 (getByPath refundModel pc.1))) :=
  ⟨by decide,
    validateAll_every_field runCheckTest refundModel
      [("/refund/amount".toList, Js.num 1), ("/missing".toList, Js.num 0)]
      [] (by decide)⟩

/-- Claim C1: a non-OK HTTP response or a network error (at fetch time or
mid-stream) surfaces through the error state and the `onError` callback,
never reaches `onComplete`, halts the stream, and leaves the tree at the
last committed snapshot (for failures before any chunk is read, the
initial snapshot `tree0`; for a mid-stream failure, the snapshot produced
by the chunks already processed). -/
theorem sendTransportFailure (jsonParse : List Char → Option JsonPatch)
    (tree0 : UITree) (fr : FetchResult)
    (h : fr = .netError ∨ ∃ chunks rf, fr = .response false chunks rf) :
    runSend jsonParse tree0 fr = ⟨tree0, true, true, false⟩
    ∧ ∀ chunks,
        runSend jsonParse tree0 (.response true chunks true)
          = ⟨(chunks.foldl (processChunk jsonParse) ⟨[], tree0, false⟩).tree,
              true, true, false⟩ := by
  constructor
  · rcases h with h | ⟨chunks, rf, h⟩ <;> subst h <;> rfl
  · intro chunks
    rw [runSend]
    by_cases hh : (chunks.foldl (processChunk jsonParse) ⟨[], tree0, false⟩).halted
    · rw [if_pos hh]
    · rw [if_neg hh, if_pos rfl]

/-- Witness for C1 at a concrete failing response. -/
theorem sendTransportFailure_witness :
    runSend jsonParseTest ⟨Js.str [], []⟩ (.response false ["1\n".toList] false)
      = ⟨⟨Js.str [], []⟩, true, true, false⟩ :=
  (sendTransportFailure jsonParseTest ⟨Js.str [], []⟩
      (.response false ["1\n".toList] false)
      (Or.inr ⟨["1\n".toList], false, rfl⟩)).1

theorem stEq_refl (s : ProcState) : stEq s s := ⟨rfl, rfl, fun _ => rfl⟩

theorem foldl_feedChar_halted (jsonParse : List Char → Option JsonPatch) :
    ∀ (l : List Char) (s : ProcState), s.halted = true →
      List.foldl (feedChar jsonParse) s l = s
  | [], s, _ => rfl
  | c :: cs, s, hh => by
      rw [List.foldl_cons, feedChar, if_pos hh]
      exact foldl_feedChar_halted jsonParse cs s hh

theorem foldl_processChunk_halted (jsonParse : List Char → Option JsonPatch) :
    ∀ (l : List (List Char)) (s : ProcState), s.halted = true →
      List.foldl (processChunk jsonParse) s l = s
  | [], s, _ => rfl
  | c :: cs, s, hh => by
      rw [List.foldl_cons, processChunk, if_pos hh]
      exact foldl_processChunk_halted jsonParse cs s hh

theorem lastP_splitChar_not_mem (sep : Char) :
    ∀ (l : List Char), sep ∉ (splitChar sep l).getLastD []
  | [] => by simp [splitChar]
  | c :: cs => by
      have ih := lastP_splitChar_not_mem sep cs
      rw [splitChar]
      cases hA : splitChar sep cs with
      | nil => exact absurd hA (splitChar_ne_nil sep cs)
      | cons s ss =>
          rw [hA] at ih
          show sep ∉ (if c = sep then [] :: s :: ss else (c :: s) :: ss).getLastD []
          by_cases hc : c = sep
          · rw [if_pos hc, List.getLastD_cons]
            exact ih
          · rw [if_neg hc]
            cases ss with
            | nil =>
                have ih2 : sep ∉ s := ih
                show sep ∉ c :: s
                simp only [List.mem_cons, not_or]
                exact ⟨fun h => hc h.symm, ih2⟩
            | cons s2 ss2 =>
                rw [List.getLastD_cons, List.getLastD_cons]
                rw [List.getLastD_cons, List.getLastD_cons] at ih
                exact ih

theorem processChunk_buffer_not_mem (jsonParse : List Char → Option JsonPatch)
    (s : ProcState) (chunk : List Char) (hh : s.halted = false) :
    ('\n' : Char) ∉ (processChunk jsonParse s chunk).buffer := by
  rw [processChunk, if_neg (by rw [hh]; exact Bool.false_ne_true)]
  cases hpl : processLines jsonParse s.tree
      (splitChar '\n' (s.buffer ++ chunk)).dropLast with
  | mk t2 h2 => exact lastP_splitChar_not_mem '\n' (s.buffer ++ chunk)

/-- Unfolding of one non-halted iteration of the buffer-and-split loop. -/
theorem processChunk_run (jsonParse : List Char → Option JsonPatch)
    (s : ProcState) (chunk : List Char) (hh : s.halted = false) :
    processChunk jsonParse s chunk
      = match processLines jsonParse s.tree
            (splitChar '\n' (s.buffer ++ chunk)).dropLast with
        | (tree2, halted2) =>
            ⟨(splitChar '\n' (s.buffer ++ chunk)).getLastD [], tree2, halted2⟩ := by
  rw [processChunk, if_neg (by rw [hh]; exact Bool.false_ne_true)]

/-- The buffer-and-split loop is equivalent, state by state, to feeding
the chunk one character at a time. -/
theorem processChunk_eq_feed (jsonParse : List Char → Option JsonPatch) :
    ∀ (chunk : List Char) (s : ProcState), ('\n' : Char) ∉ s.buffer →
      stEq (processChunk jsonParse s chunk) (List.foldl (feedChar jsonParse) s chunk)
  | [], s, hb => by
      by_cases hh : s.halted
      · rw [List.foldl_nil, processChunk, if_pos hh]
        exact stEq_refl s
      · have hsfalse : s.halted = false := (Bool.not_eq_true s.halted).mp hh
        rw [List.foldl_nil, processChunk_run jsonParse s [] hsfalse]
        rw [List.append_nil, splitChar_eq_single hb]
        exact ⟨rfl, hsfalse.symm, fun _ => rfl⟩
  | c :: cs, s, hb => by
      by_cases hh : s.halted
      · rw [processChunk, if_pos hh, foldl_feedChar_halted jsonParse _ s hh]
        exact stEq_refl s
      · have hsfalse : s.halted = false := (Bool.not_eq_true s.halted).mp hh
        by_cases hc : c = '\n'
        · subst hc
          rw [List.foldl_cons]
          cases hpl : processLine jsonParse s.tree s.buffer with
          | mk t2 h2 =>
              have hfeed : feedChar jsonParse s '\n' = ⟨[], t2, h2⟩ := by
                rw [feedChar, if_neg hh, if_pos rfl, hpl]
              rw [hfeed, processChunk_run jsonParse s _ hsfalse]
              rw [splitChar_prepend hb cs]
              cases hA : splitChar '\n' cs with
              | nil => exact absurd hA (splitChar_ne_nil '\n' cs)
              | cons a as =>
                  rw [List.dropLast_cons₂, List.getLastD_cons, processLines, hpl]
                  cases h2 with
                  | false =>
                      rw [List.getLastD_cons]
                      have h1 := processChunk_eq_feed jsonParse cs ⟨[], t2, false⟩
                        (by simp)
                      rw [processChunk_run jsonParse ⟨[], t2, false⟩ cs rfl] at h1
                      rw [show ((⟨[], t2, false⟩ : ProcState).buffer ++ cs) = cs
                          from List.nil_append cs] at h1
                      rw [hA, List.getLastD_cons] at h1
                      exact h1
                  | true =>
                      rw [foldl_feedChar_halted jsonParse cs _ rfl]
                      exact ⟨rfl, rfl, fun hf => Bool.noConfusion hf⟩
        · rw [List.foldl_cons]
          have hfeed : feedChar jsonParse s c
              = ⟨s.buffer ++ [c], s.tree, s.halted⟩ := by
            rw [feedChar, if_neg hh, if_neg hc]
          have heq : processChunk jsonParse s (c :: cs)
              = processChunk jsonParse ⟨s.buffer ++ [c], s.tree, s.halted⟩ cs := by
            rw [processChunk_run jsonParse s _ hsfalse,
              processChunk_run jsonParse ⟨s.buffer ++ [c], s.tree, s.halted⟩ cs hsfalse]
            rw [show s.buffer ++ c :: cs = (s.buffer ++ [c]) ++ cs
                from List.append_cons s.buffer c cs]
          rw [heq, hfeed]
          have hb2 : ('\n' : Char) ∉ s.buffer ++ [c] := by
            simp only [List.mem_append, List.mem_singleton, not_or]
            exact ⟨hb, fun h => hc h.symm⟩
          exact processChunk_eq_feed jsonParse cs ⟨s.buffer ++ [c], s.tree, s.halted⟩ hb2

theorem stEq_eq_of_not_halted {s1 s2 : ProcState} (h : stEq s1 s2)
    (hh : s1.halted = false) : s1 = s2 := by
  obtain ⟨ht, hhalt, hbuf⟩ := h
  obtain ⟨b1, t1, f1⟩ := s1
  obtain ⟨b2, t2, f2⟩ := s2
  simp only at ht hhalt hbuf hh
  rw [ht, hhalt, hbuf hh]

theorem stEq_transfer (jsonParse : List Char → Option JsonPatch) :
    ∀ (chunks : List (List Char)) (a b : ProcState), stEq a b →
      (a.halted = false → ('\n' : Char) ∉ a.buffer) →
      stEq (List.foldl (processChunk jsonParse) a chunks)
        (List.foldl (feedChar jsonParse) b chunks.flatten)
  | [], a, b, hab, _ => by
      rw [List.foldl_nil, List.flatten_nil, List.foldl_nil]
      exact hab
  | c :: cs, a, b, hab, hbuf => by
      rw [List.foldl_cons, List.flatten_cons, List.foldl_append]
      by_cases hh : a.halted
      · have hbh : b.halted = true := hab.2.1 ▸ hh
        rw [show processChunk jsonParse a c = a from by rw [processChunk, if_pos hh]]
        rw [foldl_processChunk_halted jsonParse cs a hh,
          foldl_feedChar_halted jsonParse c b hbh,
          foldl_feedChar_halted jsonParse cs.flatten b hbh]
        exact hab
      · have hsfalse : a.halted = false := (Bool.not_eq_true a.halted).mp hh
        have hba : a = b := stEq_eq_of_not_halted hab hsfalse
        subst hba
        exact stEq_transfer jsonParse cs (processChunk jsonParse a c)
          (List.foldl (feedChar jsonParse) a c)
          (processChunk_eq_feed jsonParse c a (hbuf hsfalse))
          (fun _ => processChunk_buffer_not_mem jsonParse a c hsfalse)

theorem flushBuffer_stEq (jsonParse : List Char → Option JsonPatch)
    {s1 s2 : ProcState} (h : stEq s1 s2) :
    (flushBuffer jsonParse s1).1 = (flushBuffer jsonParse s2).1 := by
  by_cases hh : s1.halted
  · have hh2 : s2.halted = true := h.2.1 ▸ hh
    rw [flushBuffer, flushBuffer, if_pos hh, if_pos hh2]
    exact h.1
  · have hs : s1 = s2 := stEq_eq_of_not_halted h ((Bool.not_eq_true _).mp hh)
    rw [hs]

/-- Claim C4: for every JSON parser, initial snapshot and sequence of
text chunks, feeding the chunks through the buffer-and-split loop
(including the final-fragment handling after the source completes)
produces the same final tree as feeding the whole concatenated text as
one chunk — so any chunking of a fixed sequence of JSONL lines,
mid-line splits included, yields the same final tree. -/
theorem runStream_chunk_invariant (jsonParse : List Char → Option JsonPatch)
    (tree0 : UITree) (chunks : List (List Char)) :
    runStream jsonParse tree0 chunks = runStream jsonParse tree0 [chunks.flatten] := by
  rw [runStream, runStream]
  have h1 : stEq (List.foldl (processChunk jsonParse) ⟨[], tree0, false⟩ chunks)
      (List.foldl (feedChar jsonParse) ⟨[], tree0, false⟩ chunks.flatten) :=
    stEq_transfer jsonParse chunks _ _ (stEq_refl _) (fun _ => by simp)
  have h2 : stEq
      (List.foldl (processChunk jsonParse) ⟨[], tree0, false⟩ [chunks.flatten])
      (List.foldl (feedChar jsonParse) ⟨[], tree0, false⟩ chunks.flatten) := by
    rw [List.foldl_cons, List.foldl_nil]
    exact processChunk_eq_feed jsonParse chunks.flatten ⟨[], tree0, false⟩ (by simp)
  rw [flushBuffer_stEq jsonParse h1, flushBuffer_stEq jsonParse h2]
